import Mathlib

/-!
Verification of the agent-sync synchronization engine.

This file gives a shallow embedding, in Lean 4, of the core of the
agent-sync repository (a deterministic synchronization engine for agent
configuration files) and proves or refutes the frozen claims about it.

Embedded components (each definition is translated from the named Go
source function):

* override strategies and the override processor
  (`internal/transform`: `appendContent`, `prependContent`,
  `OverrideProcessor.Apply`, `OverrideProcessor.ValidateOverrides`,
  `DetectConflicts`);
* the sync engine write/rollback phase (`internal/engine`:
  `SyncEngine.Sync`, `rollback`);
* the local source resolver directory walk
  (`internal/source`: `LocalResolver.Resolve`);
* the prune engine and the library client around it
  (`internal/engine`: `PruneEngine.Prune`; `pkg/agentsync`: `Client.Prune`);
* the update engine lockfile construction (`internal/engine`:
  `UpdateEngine.Update`);
* the content-addressed cache (`internal/cache`: `Cache.Get`, `Cache.Put`);
* the sandbox path validation (`internal/sandbox`: `ValidatePath`);
* configuration and lockfile validation (`internal/config`: `Validate`;
  `internal/lock`: `Validate`, `Load`; `pkg/agentsync`:
  `Client.loadLockfile`).

File contents are byte lists (`Bytes`); file systems are maps from path
strings to optional contents; Go maps are association lists; fallible Go
functions return `Except String`.  SHA-256 appears only through an
abstract hash parameter, with injectivity assumed exactly where the code
relies on hash equality implying content equality.
-/

namespace AgentSync

/-- File contents as a list of bytes. -/
abbrev Bytes := List Nat

/-- The newline byte. -/
def nlByte : Nat := 10

/-! ## Override strategies (`internal/transform`, `OverrideProcessor`) -/

/-- An override entry from the configuration (`config.Override`). -/
structure Override where
  target : String
  strategy : String
  file : String
deriving DecidableEq, Repr

/-- `appendContent` from `internal/transform`: if the original is non-empty
and does not end with a newline, append one; then concatenate the addition. -/
def appendContent (original addition : Bytes) : Bytes :=
  let base := if 0 < original.length ∧ original.getLast? ≠ some nlByte
    then original ++ [nlByte] else original
  base ++ addition

/-- `prependContent` from `internal/transform`: if the addition is non-empty
and does not end with a newline, append one to it; then concatenate the
original after it. -/
def prependContent (original addition : Bytes) : Bytes :=
  let addn := if 0 < addition.length ∧ addition.getLast? ≠ some nlByte
    then addition ++ [nlByte] else addition
  addn ++ original

/-- The strategy dispatch of `OverrideProcessor.Apply` /
`OverrideProcessor.ApplySingle`. -/
def applyStrategy (strategy : String) (existing overrideContent : Bytes) :
    Except String Bytes :=
  match strategy with
  | "append" => .ok (appendContent existing overrideContent)
  | "prepend" => .ok (prependContent existing overrideContent)
  | "replace" => .ok overrideContent
  | _ => .error ("invalid strategy " ++ strategy)

/-- A file map keyed by destination filename (Go `map[string][]byte`),
as an association list. -/
abbrev FileMap := List (String × Bytes)

/-- Go map read. -/
def lookupFile (m : FileMap) (k : String) : Option Bytes :=
  (m.find? (fun p => p.1 == k)).map Prod.snd

/-- Go map write for a key already present (the only case
`OverrideProcessor.Apply` performs). -/
def setFile (m : FileMap) (k : String) (v : Bytes) : FileMap :=
  m.map (fun p => if p.1 == k then (k, v) else p)

/-- `OverrideProcessor.Apply` from `internal/transform`: for each override in
configuration order, the target filename must exist in the synced file map,
the override file is read from the project root (modeled by `readFileFn`),
and the strategy is applied.  The input map is not mutated (the embedding is
pure, matching the copy the code makes). -/
def overrideApply (readFileFn : String → Option Bytes) (files : FileMap) :
    List Override → Except String FileMap
  | [] => .ok files
  | ov :: rest =>
    match lookupFile files ov.target with
    | none => .error ("override target does not exist after sync: " ++ ov.target)
    | some existing =>
      match readFileFn ov.file with
      | none => .error ("reading override file failed: " ++ ov.file)
      | some oc =>
        match applyStrategy ov.strategy existing oc with
        | .error e => .error e
        | .ok merged => overrideApply readFileFn (setFile files ov.target merged) rest

/-- Split a string at `/` separators (the effect of `strings.Split` /
`filepath.SplitList` on a slash-separated path).  Written by structural
recursion over the characters so that closed instances reduce. -/
def splitSlashAux (cur : List Char) : List Char → List String
  | [] => [String.mk cur.reverse]
  | c :: rest =>
    if c = '/' then String.mk cur.reverse :: splitSlashAux [] rest
    else splitSlashAux (c :: cur) rest

/-- Split a path string into its slash-separated pieces. -/
def splitSlash (s : String) : List String := splitSlashAux [] s.data

/-- Join path components with `/`. -/
def joinSlash : List String → String
  | [] => ""
  | [c] => c
  | c :: rest => c ++ "/" ++ joinSlash rest

/-- `strings.HasPrefix(name, ".")`. -/
def startsWithDot (n : String) : Bool := n.data.head? = some '.'

/-- `strings.HasPrefix` in general. -/
def strHasPre (p s : String) : Bool := p.data.isPrefixOf s.data

/-- `filepath.Base`: the last path component. -/
def baseName (p : String) : String :=
  ((splitSlash p).filter (fun s => s ≠ "")).getLastD "."

/-- `DetectConflicts` from `internal/transform`: error if any destination is
produced by more than one source and no override targets its basename. -/
def detectConflicts (destinations : List (String × List String))
    (ovs : List Override) : Except String Unit :=
  let overrideTargets := ovs.map (fun ov => ov.target)
  match destinations.find?
      (fun p => decide (1 < p.2.length) && !(overrideTargets.contains (baseName p.1))) with
  | some p => .error ("conflict: multiple sources target " ++ p.1)
  | none => .ok ()

/-! ## Sync engine write phase and rollback (`internal/engine`, `SyncEngine.Sync`) -/

/-- A destination file system: project-root-relative path to contents.
`none` means the file does not exist. -/
abbrev Fs := String → Option Bytes

/-- Point update of a file system (a successful `SafeWrite`). -/
def fsWrite (fs : Fs) (p : String) (v : Bytes) : Fs :=
  fun q => if q = p then some v else fs q

/-- Point removal (a successful `SafeRemove`). -/
def fsRemove (fs : Fs) (p : String) : Fs :=
  fun q => if q = p then none else fs q

/-- One pending write collected by `SyncEngine.Sync` (its local `fileOp`). -/
structure FileOp where
  destPath : String
  content : Bytes
  source : String
deriving DecidableEq, Repr

/-- A rollback snapshot (`snapshot` in `internal/engine`). -/
structure Snapshot where
  path : String
  content : Bytes
  existed : Bool
deriving DecidableEq, Repr

/-- The snapshot loop of `SyncEngine.Sync`: before any write, record each
operation's destination as it currently is on disk. -/
def takeSnapshots (fs : Fs) (ops : List FileOp) : List Snapshot :=
  ops.map (fun op =>
    match fs op.destPath with
    | some c => { path := op.destPath, content := c, existed := true }
    | none => { path := op.destPath, content := [], existed := false })

/-- The `snapshotMap` built by `rollback`: a Go map from path to snapshot,
so a later snapshot for the same path wins. -/
def snapshotLookup (snaps : List Snapshot) (p : String) : Option Snapshot :=
  (snaps.reverse).find? (fun s => s.path == p)

/-- `rollback` from `internal/engine`: for each written path, restore its
snapshot — `SafeWrite` of the old content if the file existed, `SafeRemove`
if it did not.  The code ignores errors of these calls; the embedding models
the restore operations as succeeding. -/
def rollback (snaps : List Snapshot) : Fs → List String → Fs
  | fs, [] => fs
  | fs, p :: rest =>
    match snapshotLookup snaps p with
    | none => rollback snaps fs rest
    | some s => rollback snaps (if s.existed then fsWrite fs p s.content else fsRemove fs p) rest

/-- Result of the write loop: final file system, written paths in order,
and whether a write failed (aborting the loop). -/
structure WriteOutcome where
  fs : Fs
  written : List String
  aborted : Bool

/-- The write loop of `SyncEngine.Sync`.  `hash` abstracts SHA-256 (the code
compares `sha256Hash existing` with `sha256Hash op.content` to skip unchanged
files); `fails i` tells whether the `SafeWrite` attempted for the operation at
index `i` fails.  A failing `SafeWrite` leaves the destination unchanged
(tempfile-plus-rename) and stops the loop; the engine then rolls back. -/
def writeLoop (hash : Bytes → Bytes) (fails : Nat → Bool) :
    Fs → List String → Nat → List FileOp → WriteOutcome
  | fs, written, _, [] => { fs := fs, written := written, aborted := false }
  | fs, written, i, op :: rest =>
    match fs op.destPath with
    | some existing =>
      if hash existing = hash op.content then
        writeLoop hash fails fs written (i + 1) rest
      else if fails i then
        { fs := fs, written := written, aborted := true }
      else
        writeLoop hash fails (fsWrite fs op.destPath op.content)
          (written ++ [op.destPath]) (i + 1) rest
    | none =>
      if fails i then
        { fs := fs, written := written, aborted := true }
      else
        writeLoop hash fails (fsWrite fs op.destPath op.content)
          (written ++ [op.destPath]) (i + 1) rest

/-- The non-dry-run tail of `SyncEngine.Sync`: snapshot every destination,
run the write loop, and on a write failure restore the snapshots. -/
def syncWritePhase (hash : Bytes → Bytes) (fails : Nat → Bool) (fs : Fs)
    (ops : List FileOp) : Fs × Bool :=
  if (writeLoop hash fails fs [] 0 ops).aborted then
    (rollback (takeSnapshots fs ops) (writeLoop hash fails fs [] 0 ops).fs
      (writeLoop hash fails fs [] 0 ops).written, true)
  else ((writeLoop hash fails fs [] 0 ops).fs, false)

/-! ## Sync operation collection (`SyncEngine.Sync`, steps before writing) -/

/-- `filepath.Join(dest, relPath)` for the destination paths the engine
builds: drop a trailing separator of the target directory and join. -/
def joinPath (dest rel : String) : String :=
  let d := if dest.data.getLast? = some '/' then String.mk dest.data.dropLast else dest
  d ++ "/" ++ rel

/-- A locked source as the sync engine consumes it, with its (already
fetched) file contents: name and relative-path/content pairs. -/
structure SyncSource where
  name : String
  files : List (String × Bytes)
deriving Repr

/-- The operation-collection loop of `SyncEngine.Sync`: for each locked
source in lockfile order, cross its files with its target destinations. -/
def collectOps (sources : List SyncSource) (targetsOf : String → List String) :
    List FileOp :=
  sources.flatMap (fun ls =>
    (targetsOf ls.name).flatMap (fun dest =>
      ls.files.map (fun f =>
        { destPath := joinPath dest f.1, content := f.2, source := ls.name })))

/-- Lexicographic order on character lists (Go string comparison). -/
def charListLt : List Char → List Char → Bool
  | [], [] => false
  | [], _ :: _ => true
  | _ :: _, [] => false
  | a :: as, b :: bs =>
    if a.toNat < b.toNat then true
    else if b.toNat < a.toNat then false
    else charListLt as bs

/-- Go `<` on strings. -/
def strLt (a b : String) : Bool := charListLt a.data b.data

/-- Insertion into a list of operations sorted by destination path. -/
def insertOp (op : FileOp) : List FileOp → List FileOp
  | [] => [op]
  | o :: rest =>
    if strLt op.destPath o.destPath then op :: o :: rest else o :: insertOp op rest

/-- The `sort.Slice` call of `SyncEngine.Sync`: order operations by
destination path. -/
def sortOps : List FileOp → List FileOp
  | [] => []
  | op :: rest => insertOp op (sortOps rest)

/-- The override step of `SyncEngine.Sync`: build a map from destination
basename to content (later operations overwrite earlier ones, as Go map
assignment does), run `OverrideProcessor.Apply`, and rewrite each
operation whose basename the returned map covers. -/
def applyOverridesToOps (readFileFn : String → Option Bytes)
    (ops : List FileOp) (ovs : List Override) : Except String (List FileOp) :=
  if ovs.isEmpty then .ok ops else
    let filesByName := ops.foldl (fun m op =>
      setFile (if lookupFile m (baseName op.destPath) = none
          then m ++ [(baseName op.destPath, [])] else m)
        (baseName op.destPath) op.content) []
    match overrideApply readFileFn filesByName ovs with
    | .error e => .error ("applying overrides: " ++ e)
    | .ok applied => .ok (ops.map (fun op =>
        match lookupFile applied (baseName op.destPath) with
        | some newContent => { op with content := newContent }
        | none => op))

/-- The full non-dry-run sync pipeline of `SyncEngine.Sync` after target
resolution and fetching: collect operations, apply overrides, sort, write
with rollback on failure.  The returned flag is `true` when a write failed
and the snapshots were restored.  Note the pipeline contains no conflict
check: `DetectConflicts` is never invoked by `Sync`. -/
def syncPipeline (hash : Bytes → Bytes) (fails : Nat → Bool)
    (readFileFn : String → Option Bytes) (fs : Fs)
    (sources : List SyncSource) (targetsOf : String → List String)
    (ovs : List Override) : Except String (Fs × Bool) :=
  let ops := collectOps sources targetsOf
  match applyOverridesToOps readFileFn ops ovs with
  | .error e => .error e
  | .ok ops2 => .ok (syncWritePhase hash fails fs (sortOps ops2))

/-- The destination-to-sources map that `DetectConflicts` expects, built
from a list of sync operations. -/
def destinationsOf (ops : List FileOp) : List (String × List String) :=
  (ops.map (fun op => op.destPath)).dedup.map (fun d =>
    (d, (ops.filter (fun op => op.destPath = d)).map (fun op => op.source)))

/-! ## Local resolver directory walk (`internal/source`, `LocalResolver.Resolve`) -/

/-- An in-memory directory tree for the resolver walk.  Relative paths are
component lists. -/
inductive FsEntry where
  | file (name : String) (content : Bytes)
  | dir (name : String) (entries : List FsEntry)

mutual

/-- One step of the `filepath.Walk` callback in `LocalResolver.Resolve`:
a directory is always descended into (the callback returns `nil` for
directories before any hidden-name check, never `filepath.SkipDir`); a file
whose own name begins with `.` is skipped; any other file is emitted under
its path relative to the walk base. -/
def walkEntry (pre : List String) : FsEntry → List (List String × Bytes)
  | .file n c => if startsWithDot n then [] else [(pre ++ [n], c)]
  | .dir n es => walkEntryList (pre ++ [n]) es

/-- Walk the children of a directory in order. -/
def walkEntryList (pre : List String) : List FsEntry → List (List String × Bytes)
  | [] => []
  | e :: rest => walkEntry pre e ++ walkEntryList pre rest

end

/-- The file-hash map `LocalResolver.Resolve` builds for a directory source:
walk the tree and hash every emitted file (`hashLocalFile`).  `H` abstracts
SHA-256. -/
def localResolveDir (H : Bytes → String) (entries : List FsEntry) :
    List (List String × String) :=
  (walkEntryList [] entries).map (fun f => (f.1, H f.2))

/-- The tail of `LocalResolver.Resolve` for a directory source: an empty
file map is an error (`no files found`). -/
def localResolve (H : Bytes → String) (entries : List FsEntry) :
    Except String (List (List String × String)) :=
  let files := localResolveDir H entries
  if files.isEmpty then .error "no files found" else .ok files

/-! ## Configuration model and validation (`internal/config`) -/

/-- A source spec (`config.Source`), with the fields `Validate` inspects. -/
structure CfgSource where
  name : String := ""
  type : String := ""
  repo : String := ""
  ref : String := ""
  url : String := ""
  checksum : String := ""
  path : String := ""
deriving DecidableEq, Repr

/-- A target entry (`config.Target`). -/
structure Target where
  source : String := ""
  tools : List String := []
  destination : String := ""
deriving DecidableEq, Repr

/-- A transform entry (`config.Transform`), with the fields `Validate`
inspects. -/
structure Transform where
  source : String := ""
  type : String := ""
  command : String := ""
deriving DecidableEq, Repr

/-- A tool definition (`config.ToolDefinition`). -/
structure ToolDefinition where
  name : String := ""
  destination : String := ""
deriving DecidableEq, Repr

/-- A configuration (`config.Config`), restricted to the fields validation
and the engines consume. -/
structure Config where
  version : Nat := 0
  sources : List CfgSource := []
  targets : List Target := []
  overrides : List Override := []
  transforms : List Transform := []
  toolDefinitions : List ToolDefinition := []
deriving Repr

/-- `validateSource` from `internal/config`: kind-specific required fields. -/
def validateCfgSource (src : CfgSource) : List String :=
  match src.type with
  | "git" =>
    (if src.repo = "" then ["type git requires repo"] else [])
      ++ (if src.ref = "" then ["type git requires ref"] else [])
  | "url" =>
    (if src.url = "" then ["type url requires url"] else [])
      ++ (if src.checksum = "" then ["type url requires checksum"] else [])
  | "local" => if src.path = "" then ["type local requires path"] else []
  | "" => ["type is required"]
  | other => ["unknown source type " ++ other]

/-- The sources loop of `config.Validate`: required name, duplicate names,
then the kind-specific checks.  `seen` is the `sourceNames` set. -/
def validateSources (seen : List String) : List CfgSource → List String
  | [] => []
  | src :: rest =>
    let nameErrs :=
      if src.name = "" then ["name is required"]
      else if seen.contains src.name then ["duplicate source name " ++ src.name]
      else []
    let seen2 :=
      if src.name = "" ∨ seen.contains src.name then seen else src.name :: seen
    nameErrs ++ validateCfgSource src ++ validateSources seen2 rest

/-- The set of defined source names the later loops of `config.Validate`
check references against. -/
def definedNames (sources : List CfgSource) : List String :=
  (sources.map (fun s => s.name)).filter (fun n => n ≠ "")

/-- The targets loop of `config.Validate`: source required and defined;
`tools` and `destination` mutually exclusive and at least one given. -/
def validateTargets (names : List String) : List Target → List String
  | [] => []
  | tgt :: rest =>
    (if tgt.source = "" then ["target source is required"]
     else if ¬ names.contains tgt.source
       then ["target references undefined source " ++ tgt.source] else [])
    ++ (if ¬ tgt.tools.isEmpty ∧ tgt.destination ≠ ""
        then ["tools and destination are mutually exclusive"] else [])
    ++ (if tgt.tools.isEmpty ∧ tgt.destination = ""
        then ["one of tools or destination is required"] else [])
    ++ validateTargets names rest

/-- The overrides loop of `config.Validate`: target and file required,
strategy in the valid set.  Note it never consults the disk. -/
def validateOverrideEntries : List Override → List String
  | [] => []
  | ov :: rest =>
    (if ov.target = "" then ["override target is required"] else [])
    ++ (if ov.file = "" then ["override file is required"] else [])
    ++ (match ov.strategy with
        | "append" => []
        | "prepend" => []
        | "replace" => []
        | "" => ["override strategy is required"]
        | other => ["invalid override strategy " ++ other])
    ++ validateOverrideEntries rest

/-- The transforms loop of `config.Validate`. -/
def validateTransforms (names : List String) : List Transform → List String
  | [] => []
  | tx :: rest =>
    (if tx.source = "" then ["transform source is required"]
     else if ¬ names.contains tx.source
       then ["transform references undefined source " ++ tx.source] else [])
    ++ (match tx.type with
        | "template" => []
        | "custom" => if tx.command = "" then ["custom transform requires command"] else []
        | "" => ["transform type is required"]
        | other => ["invalid transform type " ++ other])
    ++ validateTransforms names rest

/-- The tool-definitions loop of `config.Validate`. -/
def validateToolDefs : List ToolDefinition → List String
  | [] => []
  | td :: rest =>
    (if td.name = "" then ["tool definition name is required"] else [])
    ++ (if td.destination = "" then ["tool definition destination is required"] else [])
    ++ validateToolDefs rest

/-- `Validate` from `internal/config/load.go`: the whole semantic check a
configuration undergoes when loaded (`Load` and `LoadHierarchical` reject
the configuration iff this list is non-empty).  It takes no view of the
file system: no check involves the disk. -/
def configValidate (cfg : Config) : List String :=
  (if cfg.version ≠ 1 then ["unsupported version"] else [])
  ++ (if cfg.sources.isEmpty then ["at least one source is required"] else [])
  ++ validateSources [] cfg.sources
  ++ validateTargets (definedNames cfg.sources) cfg.targets
  ++ validateOverrideEntries cfg.overrides
  ++ validateTransforms (definedNames cfg.sources) cfg.transforms
  ++ validateToolDefs cfg.toolDefinitions

/-- `OverrideProcessor.ValidateOverrides` from `internal/transform`: error
on the first override whose file does not exist on disk (`existsOnDisk`
models `os.Stat` succeeding).  No production code path invokes it. -/
def validateOverrideFiles (existsOnDisk : String → Bool) :
    List Override → Except String Unit
  | [] => .ok ()
  | ov :: rest =>
    if existsOnDisk ov.file then validateOverrideFiles existsOnDisk rest
    else .error ("override file does not exist: " ++ ov.file)

/-! ## Lockfile model, validation and loading (`internal/lock`, `pkg/agentsync`) -/

/-- A locked source (`lock.LockedSource` with its `ResolvedState`
flattened). `files` maps relative path to SHA-256. -/
structure LockedSource where
  name : String := ""
  type : String := ""
  repo : String := ""
  status : String := ""
  commit : String := ""
  tree : String := ""
  url : String := ""
  sha256 : String := ""
  path : String := ""
  files : List (String × String) := []
deriving DecidableEq, Repr

/-- A lockfile (`lock.Lockfile`). -/
structure Lockfile where
  version : Nat := 0
  sources : List LockedSource := []
deriving DecidableEq, Repr

/-- The per-source loop of `lock.Validate`: required unique name, required
type, required status. -/
def validateLockedSources (seen : List String) : List LockedSource → List String
  | [] => []
  | src :: rest =>
    let nameErrs :=
      if src.name = "" then ["name is required"]
      else if seen.contains src.name then ["duplicate source name " ++ src.name]
      else []
    let seen2 :=
      if src.name = "" ∨ seen.contains src.name then seen else src.name :: seen
    nameErrs
    ++ (if src.type = "" then ["type is required"] else [])
    ++ (if src.status = "" then ["status is required"] else [])
    ++ validateLockedSources seen2 rest

/-- `Validate` from `internal/lock`. -/
def lockValidate (lf : Lockfile) : List String :=
  (if lf.version ≠ 1 then ["unsupported version"] else [])
  ++ validateLockedSources [] lf.sources

/-- The possible outcomes of reading and parsing the lockfile document,
the inputs to `lock.Load`. -/
inductive LockfileRead where
  | readFailed
  | parseFailed
  | parsed (lf : Lockfile)
deriving DecidableEq, Repr

/-- `Load` from `internal/lock`: error when the file cannot be read, when
it fails to parse, or when validation reports any error. -/
def lockLoad : LockfileRead → Except String Lockfile
  | .readFailed => .error "reading lockfile"
  | .parseFailed => .error "parsing lockfile"
  | .parsed lf =>
    if (lockValidate lf).isEmpty then .ok lf
    else .error "lockfile validation failed"

/-- `Client.loadLockfile` from `pkg/agentsync`: every `lock.Load` error is
replaced by an empty version-1 lockfile.  `Sync`, `Check`, `Verify`,
`Prune` and `Update` all obtain their lockfile through this function. -/
def clientLoadLockfile (r : LockfileRead) : Lockfile :=
  match lockLoad r with
  | .error _ => { version := 1, sources := [] }
  | .ok lf => lf

/-! ## Content-addressed cache (`internal/cache`) -/

/-- The cache store: hash key to stored bytes (the object file at
`objects/<hex[0:2]>/<hex>`, whose path is determined by the key). -/
abbrev CacheStore := String → Option Bytes

/-- Result of `Cache.Get`: the store afterwards and the found content
(`none` for a miss). -/
structure CacheGetResult where
  store : CacheStore
  found : Option Bytes

/-- `Cache.Get` from `internal/cache`: a missing object is a plain miss; an
object whose recomputed hash disagrees with the key is removed and reported
as a miss (self-healing); otherwise the content is returned.  `H` abstracts
SHA-256 (`computeHash`).  I/O errors other than non-existence are outside
the model. -/
def cacheGet (H : Bytes → String) (store : CacheStore) (key : String) :
    CacheGetResult :=
  match store key with
  | none => { store := store, found := none }
  | some data =>
    if H data ≠ key then
      { store := fun q => if q = key then none else store q, found := none }
    else
      { store := store, found := some data }

/-- `Cache.Put` from `internal/cache`: refuse content that does not hash to
the declared key; an existing entry is left untouched; otherwise store. -/
def cachePut (H : Bytes → String) (store : CacheStore) (key : String)
    (content : Bytes) : Except String CacheStore :=
  if H content ≠ key then .error "content hash does not match declared hash"
  else
    match store key with
    | some _ => .ok store
    | none => .ok (fun q => if q = key then some content else store q)

/-! ## Sandbox path validation (`internal/sandbox`, `ValidatePath`) -/

/-- The component processing of `filepath.Clean` for an absolute path:
drop empty and `.` components, let `..` pop the previous component (or
vanish at the root). -/
def cleanLoop (stack : List String) : List String → List String
  | [] => stack.reverse
  | c :: rest =>
    if c = "" ∨ c = "." then cleanLoop stack rest
    else if c = ".." then
      match stack with
      | [] => cleanLoop [] rest
      | _ :: s => cleanLoop s rest
    else cleanLoop (c :: stack) rest

/-- `filepath.Clean` on an absolute path. -/
def pathClean (p : String) : String :=
  "/" ++ joinSlash (cleanLoop [] (splitSlash p))

/-- `ValidatePath` from `internal/sandbox`, after the project root has been
resolved to its real path `realRoot`: join root and target and clean
(`filepath.Join`), resolve the longest existing prefix through symlinks
(`resolveExistingPath`, abstracted by `resolveFn` since it reads the live
file system), and accept only a result that is the root itself or starts
with the root followed by the separator. -/
def validatePath (realRoot : String) (resolveFn : String → String)
    (target : String) : Except String String :=
  let candidate := pathClean (realRoot ++ "/" ++ target)
  let resolved := resolveFn candidate
  if resolved = realRoot ∨ strHasPre (realRoot ++ "/") resolved then .ok resolved
  else .error ("path resolves outside the project root: " ++ resolved)

/-! ## Prune (`internal/engine/prune.go`, `pkg/agentsync` `Client.Prune`) -/

/-- A tool map as name/destination pairs (`target.ToolMap`:
the built-in set overlaid with the user definitions). -/
abbrev ToolMapL := List (String × String)

/-- The built-in tool set of `internal/target`. -/
def builtinToolMap : ToolMapL :=
  [("cursor", ".cursor/rules/"), ("claude-code", ".claude/"),
   ("copilot", ".github/copilot/"), ("windsurf", ".windsurf/rules/"),
   ("cline", ".cline/rules/"), ("codex", ".codex/")]

/-- The candidate removal paths `PruneEngine.Prune` tries for one orphaned
locked source: every known tool destination joined with every relative path
of the source. -/
def orphanPaths (toolMap : ToolMapL) (ls : LockedSource) : List String :=
  toolMap.flatMap (fun t => ls.files.map (fun f => joinPath t.2 f.1))

/-- The removal loop: `SafeRemove` succeeds exactly on existing files
within the root (path validation aside, which these tool paths satisfy);
only successful removals are reported. -/
def removeFiles (fs : Fs) (removed : List String) : List String → Fs × List String
  | [] => (fs, removed)
  | p :: rest =>
    match fs p with
    | some _ => removeFiles (fsRemove fs p) (removed ++ [p]) rest
    | none => removeFiles fs removed rest

/-- `PruneEngine.Prune` from `internal/engine`: in dry-run nothing is
removed; otherwise every locked source absent from the configuration has
its files removed from all known tool destinations.  The lockfile is not an
output: the engine never constructs or returns a modified lockfile. -/
def pruneRun (toolMap : ToolMapL) (lf : Lockfile) (cfgSources : List CfgSource)
    (dryRun : Bool) (fs : Fs) : Fs × List String :=
  if dryRun then (fs, [])
  else
    let orphans := lf.sources.filter
      (fun ls => ¬ cfgSources.any (fun s => s.name == ls.name))
    removeFiles fs [] (orphans.flatMap (orphanPaths toolMap))

/-- The state a `Client` operates on: destination files and the persisted
lockfile document. -/
structure ClientState where
  fs : Fs
  lockfileDoc : LockfileRead

/-- `Client.Prune` from `pkg/agentsync`: load the lockfile (with the
empty-on-failure fallback), run the prune engine, return the result.  The
method contains no `lock.Save` call, so the persisted lockfile document is
carried over unchanged. -/
def clientPrune (toolMap : ToolMapL) (cfgSources : List CfgSource)
    (dryRun : Bool) (st : ClientState) : ClientState × List String :=
  let lf := clientLoadLockfile st.lockfileDoc
  let r := pruneRun toolMap lf cfgSources dryRun st.fs
  ({ fs := r.1, lockfileDoc := st.lockfileDoc }, r.2)

/-! ## Update (`internal/engine/update.go`, `UpdateEngine.Update`) -/

/-- The Go map `configByName` built by `Update` for a named subset: on
duplicate names the later entry wins (entries overwrite). -/
def configLookup : List CfgSource → String → Option CfgSource
  | [], _ => none
  | s :: rest, n =>
    match configLookup rest n with
    | some w => some w
    | none => if s.name = n then some s else none

/-- The subset-selection loop of `Update`: each requested name is looked up
in the configuration; unknown names are recorded as per-source failures and
skipped, known ones are selected in request order. -/
def selectSources (cfg : List CfgSource) : List String → List CfgSource × List String
  | [] => ([], [])
  | n :: rest =>
    let r := selectSources cfg rest
    match configLookup cfg n with
    | none => (r.1, n :: r.2)
    | some s => (s :: r.1, r.2)

/-- Which sources `Update` resolves: all of them, or the named subset. -/
def updateSelection (cfg : List CfgSource) (names : List String) :
    List CfgSource × List String :=
  if names.isEmpty then (cfg, []) else selectSources cfg names

/-- The resolve loop of `Update`.  `ro src` models
`Registry.Get(src.Type)` followed by `resolver.Resolve` and
`resolvedToLocked`: `some` is a successfully resolved record keyed under
`src.Name` in `newByName`, `none` a per-source failure.  Failures never
abort the loop. -/
def resolveLoop (ro : CfgSource → Option LockedSource) :
    List CfgSource → List (String × LockedSource) × List String
  | [] => ([], [])
  | src :: rest =>
    let r := resolveLoop ro rest
    match ro src with
    | none => (r.1, src.name :: r.2)
    | some ls => ((src.name, ls) :: r.1, r.2)

/-- Go map lookup in an insertion-ordered association list: the last
insertion for a key wins (entries overwrite). -/
def assocLookup : List (String × LockedSource) → String → Option LockedSource
  | [], _ => none
  | (k, v) :: m, n =>
    match assocLookup m n with
    | some w => some w
    | none => if k = n then some v else none

/-- The Go map `currentByName` over the existing lockfile sources: built
in order with overwrite, so the last entry for a name wins. -/
def lockedLookup : List LockedSource → String → Option LockedSource
  | [], _ => none
  | ls :: m, n =>
    match lockedLookup m n with
    | some w => some w
    | none => if ls.name = n then some ls else none

/-- The lockfile-construction loop of `Update`: iterate the configuration
sources in order; prefer the freshly resolved record, else the previously
locked record, else omit the source. -/
def buildLock (cfg : List CfgSource) (newBy : List (String × LockedSource))
    (cur : List LockedSource) : List LockedSource :=
  cfg.filterMap (fun src =>
    match assocLookup newBy src.name with
    | some ls => some ls
    | none => lockedLookup cur src.name)

/-- Outcome of `UpdateEngine.Update`: the failed source names in recording
order and the new lockfile sources (`none` on dry-run). -/
structure UpdateOutcome where
  failed : List String
  lockfile : Option (List LockedSource)

/-- `UpdateEngine.Update` from `internal/engine`, over the resolution
outcome `ro`: select, resolve, and (unless dry-run) build the new
lockfile. -/
def updateRun (cfg : List CfgSource) (names : List String)
    (ro : CfgSource → Option LockedSource) (cur : List LockedSource)
    (dryRun : Bool) : UpdateOutcome :=
  let sel := updateSelection cfg names
  let r := resolveLoop ro sel.1
  { failed := sel.2 ++ r.2
  , lockfile := if dryRun then none else some (buildLock cfg r.1 cur) }

/-- The claim-side description of the new lockfile entry for one
configured source: for a selected source the fresh record if resolution
succeeded, else the previously locked record, else nothing; for an
unselected source the previously locked record if any. -/
def specUpdateEntry (names : List String) (ro : CfgSource → Option LockedSource)
    (cur : List LockedSource) (src : CfgSource) : Option LockedSource :=
  if names = [] ∨ src.name ∈ names then
    match ro src with
    | some ls => some ls
    | none => lockedLookup cur src.name
  else lockedLookup cur src.name

/-! ## Helper predicates and concrete inputs used by the theorems -/

/-- Whether an `Except` value is a success. -/
def exceptOk {ε α : Type} : Except ε α → Bool
  | .ok _ => true
  | .error _ => false

/-- Two locked sources that both produce `security.md`. -/
def conflictSources : List SyncSource :=
  [ { name := "source-a", files := [("security.md", [97])] }
  , { name := "source-b", files := [("security.md", [98])] } ]

/-- A target resolution mapping both conflicting sources to the same tool
destination. -/
def conflictTargets : String → List String := fun n =>
  if n = "source-a" ∨ n = "source-b" then [".cursor/rules/"] else []

/-- A concrete stand-in for SHA-256 in closed evaluations. -/
def demoHash : Bytes → String := fun b => if b.isEmpty then "e" else "h"

/-- A directory containing only a dot-named subdirectory with one visible
file inside it. -/
def hiddenDirTree : List FsEntry := [.dir ".hidden" [.file "visible.md" [118]]]

/-- A directory with a single visible file. -/
def plainTree : List FsEntry := [.file "a.md" [1]]

/-- A well-formed configuration whose only override references the file
`missing.md`. -/
def missingOverrideCfg : Config :=
  { version := 1
  , sources := [{ name := "rules", type := "local", path := "./rules/" }]
  , targets := [{ source := "rules", destination := ".out/" }]
  , overrides := [{ target := "a.md", strategy := "append", file := "missing.md" }] }

/-- A lockfile whose only source is absent from `pruneCfgSources`. -/
def orphanLock : Lockfile :=
  { version := 1
  , sources := [{ name := "old", type := "local", status := "ok"
                , files := [("rules.md", "h")] }] }

/-- A configuration source list that no longer contains `old`. -/
def pruneCfgSources : List CfgSource :=
  [{ name := "new", type := "local", path := "./x/" }]

/-- A client state with one previously synced file for the orphaned source
and the orphaned lockfile on disk. -/
def pruneState : ClientState :=
  { fs := fun p => if p = ".claude/rules.md" then some [1] else none
  , lockfileDoc := .parsed orphanLock }

/-- The append strategy exactly as the claim words it: a newline is
appended if and only if the existing content does not already end with a
newline.  (Defined from the claim, for comparison with `appendContent`.) -/
def claimAppend (original addition : Bytes) : Bytes :=
  (if original.getLast? = some nlByte then original else original ++ [nlByte]) ++ addition

/-- Concrete inputs for the update witness. -/
def updCfg : List CfgSource :=
  [{ name := "a", type := "local" }, { name := "b", type := "git" }]

/-- Previously locked state for the update witness. -/
def updCur : List LockedSource :=
  [{ name := "b", type := "git", status := "ok" }]

/-- Resolution outcome for the update witness: `a` resolves, `b` fails. -/
def updRo : CfgSource → Option LockedSource := fun s =>
  if s.name = "a" then some { name := "a", type := "local", status := "ok" } else none

/-- A cache store holding one entry for the cache witness. -/
def demoStore : CacheStore := fun q => if q = "1" then some [5] else none

/-- Operations for the sync-rollback witness: three writes with the last
one failing. -/
def demoOps : List FileOp :=
  [ { destPath := "f1", content := [1], source := "s" }
  , { destPath := "f2", content := [2], source := "s" }
  , { destPath := "f3", content := [3], source := "s" } ]

/-- Initial destination state for the sync-rollback witness. -/
def demoFs : Fs := fun p => if p = "f2" then some [9] else none

/-- A lockfile that parses but fails validation (unsupported version). -/
def badVersionLock : Lockfile :=
  { version := 99
  , sources := [{ name := "s", type := "local", status := "ok" }] }

end AgentSync

namespace AgentSync

/-! ## Helper lemmas -/

/-- The write loop only appends to the written list, every written path is
an operation destination, and destinations outside the written list are
untouched. -/
theorem writeLoopSpec (hash : Bytes → Bytes) (fails : Nat → Bool) :
    ∀ (ops : List FileOp) (fs : Fs) (written : List String) (i : Nat),
      (∀ q ∈ written, q ∈ (writeLoop hash fails fs written i ops).written)
      ∧ (∀ q ∈ (writeLoop hash fails fs written i ops).written,
           q ∈ written ∨ q ∈ ops.map (fun op => op.destPath))
      ∧ (∀ p, p ∉ (writeLoop hash fails fs written i ops).written →
           (writeLoop hash fails fs written i ops).fs p = fs p) := by
  intro ops
  induction ops with
  | nil =>
    intro fs written i
    exact ⟨fun q hq => hq, fun q hq => Or.inl hq, fun p _ => rfl⟩
  | cons op rest ih =>
    intro fs written i
    have hwrite : ∀ (fs2 : Fs),
        (∀ q ∈ written, q ∈ (writeLoop hash fails fs2 (written ++ [op.destPath]) (i + 1) rest).written)
        ∧ (∀ q ∈ (writeLoop hash fails fs2 (written ++ [op.destPath]) (i + 1) rest).written,
             q ∈ written ∨ q ∈ (op :: rest).map (fun o => o.destPath))
        ∧ (∀ p, p ∉ (writeLoop hash fails fs2 (written ++ [op.destPath]) (i + 1) rest).written →
             (writeLoop hash fails fs2 (written ++ [op.destPath]) (i + 1) rest).fs p = fs2 p) := by
      intro fs2
      obtain ⟨ih1, ih2, ih3⟩ := ih fs2 (written ++ [op.destPath]) (i + 1)
      refine ⟨?_, ?_, ih3⟩
      · intro q hq
        exact ih1 q (List.mem_append_left _ hq)
      · intro q hq
        rcases ih2 q hq with hq2 | hq2
        · rcases List.mem_append.1 hq2 with h | h
          · exact Or.inl h
          · right
            simp only [List.mem_singleton] at h
            simp [h]
        · right
          simp [hq2]
    rcases hexist : fs op.destPath with _ | existing
    · by_cases hf : fails i = true
      · have hred : writeLoop hash fails fs written i (op :: rest) =
            { fs := fs, written := written, aborted := true } := by
          simp only [writeLoop, hexist]
          rw [if_pos hf]
        rw [hred]
        exact ⟨fun q hq => hq, fun q hq => Or.inl hq, fun p _ => rfl⟩
      · have hred : writeLoop hash fails fs written i (op :: rest) =
            writeLoop hash fails (fsWrite fs op.destPath op.content)
              (written ++ [op.destPath]) (i + 1) rest := by
          simp only [writeLoop, hexist]
          rw [if_neg hf]
        rw [hred]
        obtain ⟨h1, h2, h3⟩ := hwrite (fsWrite fs op.destPath op.content)
        refine ⟨h1, h2, ?_⟩
        intro p hp
        have hmem : op.destPath ∈ (writeLoop hash fails (fsWrite fs op.destPath op.content)
            (written ++ [op.destPath]) (i + 1) rest).written := by
          obtain ⟨ih1, _, _⟩ := ih (fsWrite fs op.destPath op.content) (written ++ [op.destPath]) (i + 1)
          exact ih1 op.destPath (List.mem_append_right _ (List.mem_singleton_self _))
        have hne : p ≠ op.destPath := fun hcon => hp (hcon ▸ hmem)
        rw [h3 p hp]
        simp [fsWrite, hne]
    · by_cases heq : hash existing = hash op.content
      · have hred : writeLoop hash fails fs written i (op :: rest) =
            writeLoop hash fails fs written (i + 1) rest := by
          simp only [writeLoop, hexist]
          rw [if_pos heq]
        rw [hred]
        obtain ⟨ih1, ih2, ih3⟩ := ih fs written (i + 1)
        refine ⟨ih1, ?_, ih3⟩
        intro q hq
        rcases ih2 q hq with h | h
        · exact Or.inl h
        · right; simp [h]
      · by_cases hf : fails i = true
        · have hred : writeLoop hash fails fs written i (op :: rest) =
              { fs := fs, written := written, aborted := true } := by
            simp only [writeLoop, hexist]
            rw [if_neg heq, if_pos hf]
          rw [hred]
          exact ⟨fun q hq => hq, fun q hq => Or.inl hq, fun p _ => rfl⟩
        · have hred : writeLoop hash fails fs written i (op :: rest) =
              writeLoop hash fails (fsWrite fs op.destPath op.content)
                (written ++ [op.destPath]) (i + 1) rest := by
            simp only [writeLoop, hexist]
            rw [if_neg heq, if_neg hf]
          rw [hred]
          obtain ⟨h1, h2, h3⟩ := hwrite (fsWrite fs op.destPath op.content)
          refine ⟨h1, h2, ?_⟩
          intro p hp
          have hmem : op.destPath ∈ (writeLoop hash fails (fsWrite fs op.destPath op.content)
              (written ++ [op.destPath]) (i + 1) rest).written := by
            obtain ⟨ih1, _, _⟩ := ih (fsWrite fs op.destPath op.content) (written ++ [op.destPath]) (i + 1)
            exact ih1 op.destPath (List.mem_append_right _ (List.mem_singleton_self _))
          have hne : p ≠ op.destPath := fun hcon => hp (hcon ▸ hmem)
          rw [h3 p hp]
          simp [fsWrite, hne]

/-- Every snapshot records the pre-call state of its path. -/
theorem snapshotRestoreValue (fs : Fs) (ops : List FileOp) :
    ∀ s ∈ takeSnapshots fs ops, (if s.existed then some s.content else none) = fs s.path := by
  intro s hs
  unfold takeSnapshots at hs
  obtain ⟨op, hop, rfl⟩ := List.mem_map.1 hs
  rcases hexist : fs op.destPath with _ | c
  · simp [hexist]
  · simp [hexist]

/-- Every operation destination has a snapshot in the snapshot map. -/
theorem snapshotLookupCovers (fs : Fs) (ops : List FileOp) (p : String)
    (hp : p ∈ ops.map (fun op => op.destPath)) :
    ∃ s, snapshotLookup (takeSnapshots fs ops) p = some s ∧ s.path = p
      ∧ s ∈ takeSnapshots fs ops := by
  obtain ⟨op, hop, rfl⟩ := List.mem_map.1 hp
  have hmem : ∃ s ∈ (takeSnapshots fs ops).reverse, s.path = op.destPath := by
    refine ⟨(match fs op.destPath with
        | some c => { path := op.destPath, content := c, existed := true }
        | none => { path := op.destPath, content := [], existed := false }), ?_, ?_⟩
    · rw [List.mem_reverse]
      unfold takeSnapshots
      exact List.mem_map.2 ⟨op, hop, rfl⟩
    · rcases fs op.destPath with _ | c <;> simp
  rcases hfind : snapshotLookup (takeSnapshots fs ops) op.destPath with _ | s
  · exfalso
    unfold snapshotLookup at hfind
    obtain ⟨s, hsmem, hspath⟩ := hmem
    have := List.find?_eq_none.1 hfind s hsmem
    simp [hspath] at this
  · refine ⟨s, rfl, ?_, ?_⟩
    · have := List.find?_some hfind
      simpa using this
    · have := List.mem_of_find?_eq_some hfind
      exact List.mem_reverse.1 this

/-- If the current state agrees with the pre-call state outside the written
list, and every written path has a snapshot recording its pre-call state,
then the rollback pass restores the pre-call state everywhere. -/
theorem rollbackRestores (snaps : List Snapshot) (fs0 : Fs) :
    ∀ (written : List String) (cur : Fs),
      (∀ p, p ∉ written → cur p = fs0 p) →
      (∀ p ∈ written, ∃ s, snapshotLookup snaps p = some s
        ∧ (if s.existed then some s.content else none) = fs0 p) →
      ∀ p, rollback snaps cur written p = fs0 p := by
  intro written
  induction written with
  | nil =>
    intro cur h1 _ p
    exact h1 p (by simp)
  | cons q rest ih =>
    intro cur h1 h2 p
    obtain ⟨s, hs, hrestore⟩ := h2 q (by simp)
    have hred : rollback snaps cur (q :: rest) =
        rollback snaps (if s.existed then fsWrite cur q s.content else fsRemove cur q) rest := by
      simp only [rollback, hs]
    rw [hred]
    refine ih _ ?_ (fun r hr => h2 r (by simp [hr])) p
    intro r hr
    by_cases hrq : r = q
    · subst hrq
      by_cases hex : s.existed <;> simp [hex, fsWrite, fsRemove] at hrestore ⊢ <;> simp [hrestore]
    · have : r ∉ q :: rest := by simp [hrq, hr]
      rw [← h1 r this]
      by_cases hex : s.existed <;> simp [hex, fsWrite, fsRemove, hrq]

mutual

/-- Every file the walk emits sits under its own (non-dot) basename. -/
theorem walkEntryShape (pre : List String) (e : FsEntry) :
    ∀ pc ∈ walkEntry pre e, ∃ d n, pc.1 = d ++ [n] ∧ startsWithDot n = false := by
  cases e with
  | file n c =>
    intro pc hpc
    simp only [walkEntry] at hpc
    by_cases h : startsWithDot n
    · simp [h] at hpc
    · rw [if_neg h] at hpc
      simp only [List.mem_singleton] at hpc
      subst hpc
      exact ⟨pre, n, rfl, by simpa using h⟩
  | dir n es =>
    intro pc hpc
    simp only [walkEntry] at hpc
    exact walkEntryListShape (pre ++ [n]) es pc hpc

/-- List version of `walkEntryShape`. -/
theorem walkEntryListShape (pre : List String) (es : List FsEntry) :
    ∀ pc ∈ walkEntryList pre es, ∃ d n, pc.1 = d ++ [n] ∧ startsWithDot n = false := by
  cases es with
  | nil => intro pc hpc; simp [walkEntryList] at hpc
  | cons e rest =>
    intro pc hpc
    simp only [walkEntryList, List.mem_append] at hpc
    rcases hpc with hpc | hpc
    · exact walkEntryShape pre e pc hpc
    · exact walkEntryListShape pre rest pc hpc

end

/-- A name absent from the configuration is not found by the config map. -/
theorem configLookupNone (cfg : List CfgSource) (n : String)
    (h : ∀ s ∈ cfg, s.name ≠ n) : configLookup cfg n = none := by
  induction cfg with
  | nil => rfl
  | cons c rest ih =>
    have hrest : configLookup rest n = none := ih (fun s hs => h s (by simp [hs]))
    simp only [configLookup, hrest]
    rw [if_neg (h c (by simp))]

/-- A config-map hit is a configured source with the requested name. -/
theorem configLookupSome (cfg : List CfgSource) (n : String) (s : CfgSource)
    (h : configLookup cfg n = some s) : s ∈ cfg ∧ s.name = n := by
  induction cfg with
  | nil => simp [configLookup] at h
  | cons c rest ih =>
    simp only [configLookup] at h
    rcases hrest : configLookup rest n with _ | w
    · rw [hrest] at h
      by_cases hc : c.name = n
      · rw [if_pos hc] at h
        injection h with h
        subst h
        exact ⟨by simp, hc⟩
      · rw [if_neg hc] at h
        simp at h
    · rw [hrest] at h
      injection h with h
      subst h
      obtain ⟨hmem, hname⟩ := ih hrest
      exact ⟨by simp [hmem], hname⟩

/-- With unique configuration names the config map finds each source. -/
theorem configLookupOfNodup (cfg : List CfgSource)
    (hcfg : (cfg.map (fun s => s.name)).Nodup) (src : CfgSource) (hsrc : src ∈ cfg) :
    configLookup cfg src.name = some src := by
  induction cfg with
  | nil => simp at hsrc
  | cons c rest ih =>
    rcases List.mem_cons.1 hsrc with h | h
    · subst h
      have hnone : configLookup rest src.name = none := by
        refine configLookupNone rest src.name (fun s hs hcon => ?_)
        have : src.name ∈ rest.map (fun s => s.name) := List.mem_map.2 ⟨s, hs, hcon⟩
        simp only [List.map_cons, List.nodup_cons] at hcfg
        exact hcfg.1 this
      simp [configLookup, hnone]
    · have := ih (by simp only [List.map_cons, List.nodup_cons] at hcfg; exact hcfg.2) h
      simp only [configLookup, this]

/-- Every selected source is configured and was requested by name. -/
theorem selectSourcesMem (cfg : List CfgSource) (names : List String) (s : CfgSource)
    (h : s ∈ (selectSources cfg names).1) : s ∈ cfg ∧ s.name ∈ names := by
  induction names with
  | nil => simp [selectSources] at h
  | cons n rest ih =>
    simp only [selectSources] at h
    rcases hlk : configLookup cfg n with _ | w
    · rw [hlk] at h
      obtain ⟨hm, hn⟩ := ih h
      exact ⟨hm, by simp [hn]⟩
    · rw [hlk] at h
      rcases List.mem_cons.1 h with hh | hh
      · subst hh
        obtain ⟨hm, hn⟩ := configLookupSome cfg n s hlk
        exact ⟨hm, by simp [hn]⟩
      · obtain ⟨hm, hn⟩ := ih hh
        exact ⟨hm, by simp [hn]⟩

/-- A requested name that the config map resolves is selected. -/
theorem selectSourcesPicked (cfg : List CfgSource) (names : List String)
    (n : String) (s : CfgSource) (hn : n ∈ names) (hlk : configLookup cfg n = some s) :
    s ∈ (selectSources cfg names).1 := by
  induction names with
  | nil => simp at hn
  | cons m rest ih =>
    simp only [selectSources]
    rcases List.mem_cons.1 hn with h | h
    · subst h
      rw [hlk]
      simp
    · rcases hm : configLookup cfg m with _ | w
      · exact ih h
      · simp [ih h]

/-- A requested name unknown to the configuration is recorded as failed. -/
theorem selectSourcesFailed (cfg : List CfgSource) (names : List String) (n : String)
    (hn : n ∈ names) (hnone : configLookup cfg n = none) :
    n ∈ (selectSources cfg names).2 := by
  induction names with
  | nil => simp at hn
  | cons m rest ih =>
    simp only [selectSources]
    rcases List.mem_cons.1 hn with h | h
    · subst h
      rw [hnone]
      simp
    · rcases hm : configLookup cfg m with _ | w
      · simp [ih h]
      · exact ih h

/-- When at most one processed source carries a given name, the
`newByName` map holds exactly that source's resolution outcome. -/
theorem resolveLoopLookup (ro : CfgSource → Option LockedSource) (src : CfgSource) :
    ∀ l : List CfgSource, (∀ s ∈ l, s.name = src.name → s = src) →
      assocLookup (resolveLoop ro l).1 src.name =
        if ∃ s ∈ l, s.name = src.name then ro src else none := by
  intro l
  induction l with
  | nil => intro _; simp [resolveLoop, assocLookup]
  | cons s rest ih =>
    intro hl
    have hrest := ih (fun t ht => hl t (by simp [ht]))
    by_cases hn : s.name = src.name
    · have hs : s = src := hl s (by simp) hn
      subst hs
      rw [if_pos ⟨s, by simp, hn⟩]
      rcases hro : ro s with _ | ls
      · simp only [resolveLoop, hro]
        rw [hrest]
        by_cases hex : ∃ t ∈ rest, t.name = s.name
        · rw [if_pos hex, hro]
        · rw [if_neg hex]
      · simp only [resolveLoop, hro, assocLookup]
        rw [hrest]
        by_cases hex : ∃ t ∈ rest, t.name = s.name
        · rw [if_pos hex, hro]
        · rw [if_neg hex]
          simp [hn]
    · have hcond : (∃ t ∈ s :: rest, t.name = src.name) ↔ ∃ t ∈ rest, t.name = src.name := by
        constructor
        · rintro ⟨t, ht, htn⟩
          rcases List.mem_cons.1 ht with h | h
          · exact absurd (h ▸ htn) hn
          · exact ⟨t, h, htn⟩
        · rintro ⟨t, ht, htn⟩
          exact ⟨t, by simp [ht], htn⟩
      rcases hro : ro s with _ | ls
      · simp only [resolveLoop, hro]
        rw [hrest]
        by_cases hex : ∃ t ∈ rest, t.name = src.name
        · rw [if_pos hex, if_pos (hcond.2 hex)]
        · rw [if_neg hex, if_neg (fun hcon => hex (hcond.1 hcon))]
      · simp only [resolveLoop, hro, assocLookup]
        rw [hrest]
        by_cases hex : ∃ t ∈ rest, t.name = src.name
        · rw [if_pos hex, if_pos (hcond.2 hex)]
          rcases hs2 : ro src with _ | w <;> simp [hn]
        · rw [if_neg hex, if_neg (fun hcon => hex (hcond.1 hcon))]
          simp [hn]

end AgentSync

namespace AgentSync

/-! ## Claim theorems -/

/-- Claim C1: if a sync write batch fails partway (a `SafeWrite` error at
some operation, earlier writes having succeeded), then after the rollback
every destination file equals its pre-call state: previously existing files
are restored to their snapshotted content and previously absent files are
removed.  The hash used for the skip-unchanged comparison and the failure
schedule are arbitrary. -/
theorem syncRollbackRestoresPreCallState (hash : Bytes → Bytes) (fails : Nat → Bool)
    (fs : Fs) (ops : List FileOp)
    (habort : (syncWritePhase hash fails fs ops).2 = true) :
    ∀ p, (syncWritePhase hash fails fs ops).1 p = fs p := by
  intro p
  unfold syncWritePhase at habort ⊢
  by_cases hab : (writeLoop hash fails fs [] 0 ops).aborted = true
  · rw [if_pos hab]
    obtain ⟨h1, h2, h3⟩ := writeLoopSpec hash fails ops fs [] 0
    refine rollbackRestores (takeSnapshots fs ops) fs
      (writeLoop hash fails fs [] 0 ops).written (writeLoop hash fails fs [] 0 ops).fs h3 ?_ p
    intro q hq
    have hqops : q ∈ ops.map (fun op => op.destPath) := by
      rcases h2 q hq with h | h
      · simp at h
      · exact h
    obtain ⟨s, hs, hspath, hsmem⟩ := snapshotLookupCovers fs ops q hqops
    refine ⟨s, hs, ?_⟩
    rw [← hspath]
    exact snapshotRestoreValue fs ops s hsmem
  · rw [if_neg hab] at habort
    simp at habort

/-- Witness for C1: with three writes and the third one failing, the
destination that existed before the call is back to its old content. -/
theorem syncRollbackRestoresPreCallState_witness :
    (syncWritePhase id (fun i => i == 2) demoFs demoOps).1 "f2" = demoFs "f2" :=
  syncRollbackRestoresPreCallState id (fun i => i == 2) demoFs demoOps (by decide) "f2"

/-- Claim C2 (code bug): two distinct sources produce the same destination
path `.cursor/rules/security.md` with no override, yet the sync pipeline
returns success and writes the file (last write wins), because
`SyncEngine.Sync` never invokes `DetectConflicts`; `DetectConflicts`
itself, run on the same destinations, does report the conflict. -/
theorem syncConflictWritesWithoutError :
    ((syncPipeline id (fun _ => false) (fun _ => none) (fun _ => none)
        conflictSources conflictTargets []).toOption.map
      (fun r => (r.1 ".cursor/rules/security.md", r.2))) = some (some [97], false)
    ∧ exceptOk (detectConflicts
        (destinationsOf (collectOps conflictSources conflictTargets)) []) = false := by
  refine ⟨by decide, by decide⟩

/-- Claim C3 (code bug): a configuration whose override references the
non-existent file `missing.md` passes `config.Validate` with no errors —
load-time validation never consults the disk — while the (never invoked)
`OverrideProcessor.ValidateOverrides` rejects exactly this configuration on
a disk without that file. -/
theorem configValidationIgnoresOverrideFileExistence :
    configValidate missingOverrideCfg = []
    ∧ exceptOk (validateOverrideFiles (fun _ => false) missingOverrideCfg.overrides) = false := by
  refine ⟨by decide, by decide⟩

/-- Claim C4 counterexample: resolving a directory whose only content is
`.hidden/visible.md` yields a file map containing that file, although it
lies under a directory whose name begins with a dot — the walk never skips
dot-directories. -/
theorem localResolveIncludesFileUnderDotDir :
    localResolveDir demoHash hiddenDirTree = [([".hidden", "visible.md"], "h")]
    ∧ startsWithDot ".hidden" = true := by
  refine ⟨by decide, by decide⟩

/-- Claim C4 (amended): the local resolver's directory walk emits no file
whose own basename begins with a dot (files under dot-named directories are
kept), and resolution fails exactly when the filtered map is empty. -/
theorem localResolveDotFileHandling (H : Bytes → String) (entries : List FsEntry) :
    (∀ pc ∈ localResolveDir H entries, pc.1.getLast?.map startsWithDot = some false)
    ∧ (exceptOk (localResolve H entries) = false ↔ localResolveDir H entries = []) := by
  constructor
  · intro pc hpc
    unfold localResolveDir at hpc
    obtain ⟨f, hf, rfl⟩ := List.mem_map.1 hpc
    obtain ⟨d, n, hdn, hn⟩ := walkEntryListShape [] entries f hf
    simp [hdn, hn]
  · by_cases h : localResolveDir H entries = []
    · simp [localResolve, h, exceptOk]
    · simp [localResolve, h, exceptOk, List.isEmpty_iff]

/-- Witness for C4: a plain one-file directory resolves to a file whose
basename does not begin with a dot. -/
theorem localResolveDotFileHandling_witness :
    ((["a.md"], demoHash [1]) : List String × String).1.getLast?.map startsWithDot = some false := by
  refine (localResolveDotFileHandling demoHash plainTree).1 (["a.md"], demoHash [1]) ?_
  simp [localResolveDir, walkEntryList, walkEntry, plainTree, startsWithDot]

/-- Claim C5 (code bug): a non-dry-run prune of a lockfile containing the
orphaned source `old` removes its destination files, but the persisted
lockfile document is carried through unchanged and still lists `old` —
neither `PruneEngine.Prune` nor `Client.Prune` ever writes the lockfile. -/
theorem pruneLeavesLockfileUntouched :
    (clientPrune builtinToolMap pruneCfgSources false pruneState).1.lockfileDoc
        = .parsed orphanLock
    ∧ (clientLoadLockfile
        (clientPrune builtinToolMap pruneCfgSources false pruneState).1.lockfileDoc).sources.map
          (fun ls => ls.name) = ["old"]
    ∧ (clientPrune builtinToolMap pruneCfgSources false pruneState).2 = [".claude/rules.md"]
    ∧ (clientPrune builtinToolMap pruneCfgSources false pruneState).1.fs ".claude/rules.md" = none := by
  refine ⟨by decide, by decide, by decide, by decide⟩

/-- Claim C6: a non-dry-run update builds the new lockfile by iterating the
configuration sources in order, taking the freshly resolved record of a
selected source when resolution succeeded, else the previously locked
record, else omitting the source; and a requested name matching no
configured source is recorded as a per-source failure without aborting. -/
theorem updatePrefersFreshThenPreviousRecords (cfg : List CfgSource)
    (names : List String) (ro : CfgSource → Option LockedSource)
    (cur : List LockedSource) (hcfg : (cfg.map (fun s => s.name)).Nodup) :
    (updateRun cfg names ro cur false).lockfile
        = some (cfg.filterMap (specUpdateEntry names ro cur))
    ∧ ∀ n ∈ names, (∀ s ∈ cfg, s.name ≠ n) →
        n ∈ (updateRun cfg names ro cur false).failed := by
  have hinj := List.inj_on_of_nodup_map hcfg
  constructor
  · show some (buildLock cfg (resolveLoop ro (updateSelection cfg names).1).1 cur) = _
    congr 1
    unfold buildLock
    refine List.filterMap_congr (fun src hsrc => ?_)
    by_cases hne : names = []
    · subst hne
      have hsel : updateSelection cfg ([] : List String) = (cfg, []) := rfl
      rw [hsel]
      have hlk := resolveLoopLookup ro src cfg
        (fun s hs hn => hinj hs hsrc hn)
      rw [hlk, if_pos ⟨src, hsrc, rfl⟩]
      unfold specUpdateEntry
      rw [if_pos (Or.inl rfl)]
    · have hsel : (updateSelection cfg names).1 = (selectSources cfg names).1 := by
        unfold updateSelection
        rw [if_neg (by simpa [List.isEmpty_iff] using hne)]
      rw [hsel]
      have hl : ∀ s ∈ (selectSources cfg names).1, s.name = src.name → s = src :=
        fun s hs hn => hinj (selectSourcesMem cfg names s hs).1 hsrc hn
      have hlk := resolveLoopLookup ro src (selectSources cfg names).1 hl
      have hcond : (∃ s ∈ (selectSources cfg names).1, s.name = src.name)
          ↔ src.name ∈ names := by
        constructor
        · rintro ⟨s, hs, hn⟩
          exact hn ▸ (selectSourcesMem cfg names s hs).2
        · intro hmem
          exact ⟨src, selectSourcesPicked cfg names src.name src hmem
            (configLookupOfNodup cfg hcfg src hsrc), rfl⟩
      by_cases hmem : src.name ∈ names
      · rw [hlk, if_pos (hcond.2 hmem)]
        unfold specUpdateEntry
        rw [if_pos (Or.inr hmem)]
      · rw [hlk, if_neg (fun hcon => hmem (hcond.1 hcon))]
        unfold specUpdateEntry
        rw [if_neg (by simp [hne, hmem])]
  · intro n hn hnone
    have hne : names ≠ [] := by rintro rfl; simp at hn
    show n ∈ (updateSelection cfg names).2 ++ _
    have hsel : (updateSelection cfg names).2 = (selectSources cfg names).2 := by
      unfold updateSelection
      rw [if_neg (by simpa [List.isEmpty_iff] using hne)]
    rw [hsel]
    exact List.mem_append_left _ (selectSourcesFailed cfg names n hn
      (configLookupNone cfg n (fun s hs => hnone s hs)))

/-- Witness for C6: a two-source configuration, a subset naming `a` and the
unknown `zz`, with `a` resolving and `b` previously locked. -/
theorem updatePrefersFreshThenPreviousRecords_witness :
    (updateRun updCfg ["a", "zz"] updRo updCur false).lockfile
        = some (updCfg.filterMap (specUpdateEntry ["a", "zz"] updRo updCur))
    ∧ "zz" ∈ (updateRun updCfg ["a", "zz"] updRo updCur false).failed := by
  constructor
  · exact (updatePrefersFreshThenPreviousRecords updCfg ["a", "zz"] updRo updCur (by decide)).1
  · exact (updatePrefersFreshThenPreviousRecords updCfg ["a", "zz"] updRo updCur (by decide)).2
      "zz" (by decide) (by decide)

/-- Claim C7 counterexample: appending to empty existing content does not
insert the newline the claim requires (empty content does not end with a
newline, yet no newline is added); `claimAppend` is the claim verbatim. -/
theorem appendContentEmptyNoNewline :
    appendContent [] [65] = [65] ∧ claimAppend [] [65] = [nlByte, 65] ∧
      appendContent [] [65] ≠ claimAppend [] [65] := by
  refine ⟨by decide, by decide, by decide⟩

/-- Claim C7 (amended): `append` inserts one newline exactly when the
existing content is non-empty and does not already end with a newline;
`prepend` inserts one newline after the override bytes exactly when they
are non-empty and do not already end with a newline; `replace` returns the
override bytes exactly. -/
theorem overrideStrategyContents (orig add : Bytes) :
    applyStrategy "append" orig add =
      .ok (if orig = [] ∨ orig.getLast? = some nlByte then orig ++ add
           else orig ++ [nlByte] ++ add)
    ∧ applyStrategy "prepend" orig add =
      .ok (if add = [] ∨ add.getLast? = some nlByte then add ++ orig
           else (add ++ [nlByte]) ++ orig)
    ∧ applyStrategy "replace" orig add = .ok add := by
  refine ⟨?_, ?_, rfl⟩
  · simp only [applyStrategy, appendContent]
    rcases orig with _ | ⟨x, xs⟩
    · simp
    · by_cases h : (x :: xs).getLast? = some nlByte
      · simp [h]
      · simp [h, List.append_assoc]
  · simp only [applyStrategy, prependContent]
    rcases add with _ | ⟨x, xs⟩
    · simp
    · by_cases h : (x :: xs).getLast? = some nlByte
      · simp [h]
      · simp [h]

/-- Claim C8: a cache `Get` that reports found returns bytes hashing to the
requested key, for an arbitrary store state (hence after any sequence of
`Put`/`Get` operations, and under arbitrary external corruption); an entry
that fails verification is removed and reported as a miss with no error. -/
theorem cacheGetSelfConsistent (H : Bytes → String) (store : CacheStore) (key : String) :
    (∀ d, (cacheGet H store key).found = some d → H d = key)
    ∧ (∀ d, store key = some d → H d ≠ key →
        (cacheGet H store key).found = none ∧ (cacheGet H store key).store key = none) := by
  constructor
  · intro d hd
    unfold cacheGet at hd
    rcases hs : store key with _ | data
    · simp [hs] at hd
    · simp only [hs] at hd
      by_cases hh : H data = key
      · simp [hh] at hd
        subst hd
        exact hh
      · simp [hh] at hd
  · intro d hd hne
    unfold cacheGet
    simp [hd, hne]

/-- Witness for C8: a verifying entry is returned; a corrupt entry is
healed away. -/
theorem cacheGetSelfConsistent_witness :
    demoHash [5] = "h" ∧ (cacheGet demoHash demoStore "1").found = none := by
  constructor
  · exact (cacheGetSelfConsistent demoHash (fun _ => some [5]) "h").1 [5] (by decide)
  · exact ((cacheGetSelfConsistent demoHash demoStore "1").2 [5] (by decide) (by decide)).1

/-- Claim C9: whenever sandbox path validation succeeds, the returned path —
the candidate after `filepath.Clean` and symlink resolution of its longest
existing prefix (an arbitrary resolution function here) — either equals the
real project root or starts with the real root followed by the path
separator; any resolution landing outside is rejected by the same guard. -/
theorem validatePathResultWithinRoot (realRoot : String) (resolveFn : String → String)
    (target p : String) (h : validatePath realRoot resolveFn target = .ok p) :
    p = realRoot ∨ strHasPre (realRoot ++ "/") p = true := by
  unfold validatePath at h
  by_cases hg : resolveFn (pathClean (realRoot ++ "/" ++ target)) = realRoot
      ∨ strHasPre (realRoot ++ "/") (resolveFn (pathClean (realRoot ++ "/" ++ target))) = true
  · simp only [hg, if_pos] at h
    injection h with h
    subst h
    exact hg
  · simp [hg] at h

/-- Witness for C9: validating `a/b.txt` under `/proj` with the identity
resolution succeeds and the result is under the root. -/
theorem validatePathResultWithinRoot_witness :
    "/proj/a/b.txt" = "/proj" ∨ strHasPre ("/proj" ++ "/") "/proj/a/b.txt" = true :=
  validatePathResultWithinRoot "/proj" id "a/b.txt" "/proj/a/b.txt" rfl

/-- Claim C10: every lockfile load failure — unreadable file, parse
failure, or a parsed document that fails validation — is replaced by
`Client.loadLockfile` with an empty version-1 lockfile, so the client
operations proceed as if nothing had ever been locked. -/
theorem lockLoadFailureFallsBackToEmpty :
    (∀ r e, lockLoad r = .error e →
      clientLoadLockfile r = { version := 1, sources := [] })
    ∧ (∀ lf, lockValidate lf ≠ [] → ∃ e, lockLoad (.parsed lf) = .error e)
    ∧ (∃ e, lockLoad .readFailed = .error e)
    ∧ (∃ e, lockLoad .parseFailed = .error e) := by
  refine ⟨?_, ?_, ⟨_, rfl⟩, ⟨_, rfl⟩⟩
  · intro r e he
    simp [clientLoadLockfile, he]
  · intro lf hlf
    have hempty : (lockValidate lf).isEmpty = false := by
      simpa [List.isEmpty_iff] using hlf
    exact ⟨"lockfile validation failed", by simp [lockLoad, hempty]⟩

/-- Witness for C10: a lockfile with version 99 parses but fails
validation, and the client falls back to the empty lockfile. -/
theorem lockLoadFailureFallsBackToEmpty_witness :
    clientLoadLockfile (.parsed badVersionLock) = { version := 1, sources := [] } := by
  obtain ⟨e, he⟩ := lockLoadFailureFallsBackToEmpty.2.1 badVersionLock (by decide)
  exact lockLoadFailureFallsBackToEmpty.1 (.parsed badVersionLock) e he

end AgentSync
